import Mathlib

/-!
Verification of the mammography preprocessing pipeline
(`dicom_to_png.py`, `train_test_split.py`).

Images are shallowly embedded as lists of rows (`List (List Nat)` for
normalized 8-bit rasters, `List (List Int)` for raw DICOM samples),
mirroring the numpy arrays of the source.  Python / numpy slice
semantics (index normalization of negative indices, clamping) are
embedded explicitly.
-/

namespace GecaMammo

/-- Number of rows of a grid (numpy `shape[0]`). -/
def nRows (g : List (List α)) : ℕ := g.length

/-- Number of columns of a grid (numpy `shape[1]`, read off the first row). -/
def nCols (g : List (List α)) : ℕ := (g.headD []).length

/-- Pixel access with numpy-array reads out of range defaulting to 0.
All in-range uses coincide with the numpy array entry. -/
def px (g : List (List ℕ)) (i j : ℕ) : ℕ := (g.getD i []).getD j 0

/-- A grid is rectangular (numpy 2-D arrays always are). -/
def isRect (g : List (List α)) : Prop := ∀ row ∈ g, row.length = nCols g

instance decidableIsRect (g : List (List α)) : Decidable (isRect g) :=
  inferInstanceAs (Decidable (∀ row ∈ g, row.length = nCols g))

/-- Python slice index normalization: a negative index counts from the
end, and indices are clamped into `[0, n]`. -/
def pyIdx (i : ℤ) (n : ℕ) : ℕ := if i < 0 then (i + n).toNat else min i.toNat n

/-- Python slicing `l[a:b]` for already-normalized natural indices. -/
def pySliceNat (l : List α) (a b : ℕ) : List α := (l.take b).drop a

/-- Python slicing `l[a:b]` for arbitrary integer indices. -/
def pySliceZ (l : List α) (a b : ℤ) : List α :=
  pySliceNat l (pyIdx a l.length) (pyIdx b l.length)

/-- numpy 2-D slicing `g[r0:r1, c0:c1]` with natural indices. -/
def pySlice2 (g : List (List ℕ)) (r0 r1 c0 c1 : ℕ) : List (List ℕ) :=
  (pySliceNat g r0 r1).map (fun row => pySliceNat row c0 c1)

/-- Minimum of a list in a linear order (`np.min`, `coords.min(axis=0)`);
0 on the empty array (numpy raises there; the value is never used on an
empty list in this development). -/
def minD [LinearOrder α] [Zero α] : List α → α
  | [] => 0
  | a :: as => as.foldl min a

/-- Maximum of a list in a linear order (`np.max`, `coords.max(axis=0)`);
0 on the empty array. -/
def maxD [LinearOrder α] [Zero α] : List α → α
  | [] => 0
  | a :: as => as.foldl max a

/-- All samples of a raw grid in row-major order (numpy array flattening). -/
def entriesOf (g : List (List ℤ)) : List ℤ := g.foldr (fun row acc => row ++ acc) []

/-- `np.min(image_array)`. -/
def minG (g : List (List ℤ)) : ℤ := minD (entriesOf g)

/-- `np.max(image_array)`. -/
def maxG (g : List (List ℤ)) : ℤ := maxD (entriesOf g)

/-- One pixel of `(image_array - min) / (max - min) * 255` followed by
`astype(np.uint8)` (truncation; all values here are nonnegative, so
truncation is the floor).  `dicom_to_png.py` lines 95-96 and 132-133
(`np.ptp` is `max - min`). -/
def normPix (mn mx x : ℤ) : ℕ :=
  ((((x - mn : ℤ) : ℚ) / ((mx - mn : ℤ) : ℚ)) * 255).floor.toNat

/-- The normalization step of `dicom_to_png` / `extract_lesions`:
min-max scale the raw samples to 8-bit. -/
def normalizeGrid (g : List (List ℤ)) : List (List ℕ) :=
  g.map (List.map (normPix (minG g) (maxG g)))

/-- Membership of a pixel position in one of the four fixed corner
rectangles zeroed by `crop_borders` (`rem_info[:45, :80] = 0` and its
three mirrored counterparts), under Python slice-index normalization. -/
def inCorner (h w i j : ℕ) : Bool :=
  (decide (i < min 45 h) || decide (pyIdx ((h : ℤ) - 45) h ≤ i)) &&
  (decide (j < min 80 w) || decide (pyIdx ((w : ℤ) - 80) w ≤ j))

/-- One pixel of the `rem_info` array of `crop_borders`: zero when the
position falls in a corner rectangle, zero when the pixel exceeds the
hard-coded `white_threshold = 150`, the original pixel otherwise. -/
def remPix (g : List (List ℕ)) (i j : ℕ) : ℕ :=
  if inCorner (nRows g) (nCols g) i j then 0
  else if 150 < px g i j then 0 else px g i j

/-- The `rem_info` array of `crop_borders`: a copy of the image with the
four corner rectangles zeroed, then every pixel above the hard-coded
`white_threshold = 150` zeroed. -/
def remInfo (g : List (List ℕ)) : List (List ℕ) :=
  (List.range (nRows g)).map (fun i => (List.range (nCols g)).map (remPix g i))

/-- `mask.any()` for the binary mask `rem_info > threshold`. -/
def maskAny (g : List (List ℕ)) (t : ℕ) : Bool :=
  (remInfo g).any (fun row => row.any (fun v => t < v))

/-- Row indices containing a true mask pixel (the rows appearing in
`np.argwhere(mask)`). -/
def maskRows (g : List (List ℕ)) (t : ℕ) : List ℕ :=
  (List.range (nRows g)).filter
    (fun i => (List.range (nCols g)).any (fun j => t < px (remInfo g) i j))

/-- Column indices containing a true mask pixel. -/
def maskCols (g : List (List ℕ)) (t : ℕ) : List ℕ :=
  (List.range (nCols g)).filter
    (fun j => (List.range (nRows g)).any (fun i => t < px (remInfo g) i j))

/-- `y0, x0 = coords.min(axis=0)` of `crop_borders`, row component. -/
def maskY0 (g : List (List ℕ)) (t : ℕ) : ℕ := minD (maskRows g t)

/-- `y1, x1 = coords.max(axis=0)` of `crop_borders`, row component. -/
def maskY1 (g : List (List ℕ)) (t : ℕ) : ℕ := maxD (maskRows g t)

/-- `y0, x0 = coords.min(axis=0)` of `crop_borders`, column component. -/
def maskX0 (g : List (List ℕ)) (t : ℕ) : ℕ := minD (maskCols g t)

/-- `y1, x1 = coords.max(axis=0)` of `crop_borders`, column component. -/
def maskX1 (g : List (List ℕ)) (t : ℕ) : ℕ := maxD (maskCols g t)

/-- `crop_borders(image_array, threshold=10)` from `dicom_to_png.py`:
zero the corner rectangles and bright pixels, build the binary mask; if
the mask is empty return the input unchanged, otherwise return
`image_array[y0:y1+1, x0:x1+1]` for the minimal bounding rectangle of the
mask. -/
def crop_borders (g : List (List ℕ)) (t : ℕ := 10) : List (List ℕ) :=
  if maskAny g t then
    pySlice2 g (maskY0 g t) (maskY1 g t + 1) (maskX0 g t) (maskX1 g t + 1)
  else g

/-- `scale = min(target_width / w, target_height / h)` from
`resize_with_padding` (`dicom_to_png.py` line 62). -/
def scaleQ (g : List (List ℕ)) (tw th : ℕ) : ℚ :=
  min ((tw : ℚ) / ((nCols g) : ℚ)) ((th : ℚ) / ((nRows g) : ℚ))

/-- `new_size[0] = int(original_size[0] * scale)` (line 63):
the truncated new width. -/
def newW (g : List (List ℕ)) (tw th : ℕ) : ℕ :=
  (((nCols g) : ℚ) * scaleQ g tw th).floor.toNat

/-- `new_size[1] = int(original_size[1] * scale)` (line 63):
the truncated new height. -/
def newH (g : List (List ℕ)) (tw th : ℕ) : ℕ :=
  (((nRows g) : ℚ) * scaleQ g tw th).floor.toNat

/-- The all-zero canvas `Image.new("L", target_size, 0)` with the
resampled image pasted at `paste_position` (lines 69-73; PIL clips the
paste to the canvas). -/
def pasteCanvas (resized : List (List ℕ)) (tw th pasteX pasteY : ℕ) :
    List (List ℕ) :=
  (List.range th).map (fun i => (List.range tw).map (fun j =>
    if pasteY ≤ i ∧ i < pasteY + nRows resized ∧ pasteX ≤ j ∧
        j < pasteX + nCols resized
    then px resized (i - pasteY) (j - pasteX) else 0))

/-- `resize_with_padding(image, target_size)` from `dicom_to_png.py`.
The LANCZOS resampling of `image.resize` is an external PIL computation;
it is taken as a parameter `resample` (called with the grid and the new
width/height it is asked for), so the theorems below hold for any
resampler.  The function can raise, modelled as `none`: with a
zero-dimension input the scale computation divides by zero
(`ZeroDivisionError`, line 62), and when a truncated new dimension
`int(dim * scale)` is zero — reachable from positive-dimension inputs of
extreme aspect ratio, e.g. 1 x 513 at target 512 x 512 — PIL's `resize`
raises `ValueError` (height and width must be positive) instead of
returning.  Otherwise the result is the centered paste onto the black
target-size canvas at `((tw-nw)//2, (th-nh)//2)`. -/
def resize_with_padding (resample : List (List ℕ) → ℕ → ℕ → List (List ℕ))
    (g : List (List ℕ)) (tw th : ℕ) : Option (List (List ℕ)) :=
  if nRows g = 0 ∨ nCols g = 0 then none
  else if newW g tw th = 0 ∨ newH g tw th = 0 then none
  else some (pasteCanvas (resample g (newW g tw th) (newH g tw th)) tw th
    ((tw - newW g tw th) / 2) ((th - newH g tw th) / 2))

/-- One row of `finding_annotations.csv` as used by `extract_lesions`:
the `image_id` and the four bounding-box columns `(xmin, ymin, xmax,
ymax)`, collapsed to `none` when `pd.isnull` holds for them (the
`study_id` and `split` columns are not read on this code path). -/
structure AnnotationRecord where
  image_id : String
  bbox : Option (ℤ × ℤ × ℤ × ℤ)
deriving DecidableEq

/-- The numpy crop `image_array[ymin:ymax, xmin:xmax]` of
`extract_lesions` (line 152), with full Python slice semantics. -/
def lesionCrop (img : List (List ℕ)) (xmin ymin xmax ymax : ℤ) : List (List ℕ) :=
  (pySliceZ img ymin ymax).map (fun row => pySliceZ row xmin xmax)

/-- A bounding box that lies inside an `h × w` image and has positive
width and height (the validity notion of the specification). -/
def validBox (h w : ℕ) : ℤ × ℤ × ℤ × ℤ → Bool
  | (xmin, ymin, xmax, ymax) =>
    decide (0 ≤ xmin) && decide (xmin < xmax) && decide (xmax ≤ (w : ℤ)) &&
    decide (0 ≤ ymin) && decide (ymin < ymax) && decide (ymax ≤ (h : ℤ))

/-- The crop a record denotes (empty for a null bounding box). -/
def cropOfRecord (img : List (List ℕ)) (r : AnnotationRecord) : List (List ℕ) :=
  match r.bbox with
  | none => []
  | some (xmin, ymin, xmax, ymax) => lesionCrop img xmin ymin xmax ymax

/-- The record loop of `extract_lesions` (lines 141-166) on the
`apply_resize` path (the function's own default, and the routing through
the Padder that the design mandates).  Records whose `image_id` does not
match, or whose bounding-box columns are null, are passed over.  Every
crop is handed to `resize_with_padding` inside the loop (line 156); when
that call raises — a zero-size crop (`ZeroDivisionError` in the scale
computation) or a crop whose truncated new dimension is zero (PIL
`ValueError`) — the exception is caught by the `try`/`except` wrapping
the whole loop (lines 124/169), so the remaining records are not
processed and only the crops already produced remain. -/
def extractGo (resample : List (List ℕ) → ℕ → ℕ → List (List ℕ))
    (img : List (List ℕ)) (id : String) (tw th : ℕ) :
    List AnnotationRecord → List (List (List ℕ))
  | [] => []
  | r :: rs =>
    if r.image_id = id then
      match r.bbox with
      | none => extractGo resample img id tw th rs
      | some (xmin, ymin, xmax, ymax) =>
        match resize_with_padding resample
            (lesionCrop img xmin ymin xmax ymax) tw th with
        | none => []
        | some _ =>
          lesionCrop img xmin ymin xmax ymax ::
            extractGo resample img id tw th rs
    else extractGo resample img id tw th rs

/-- `extract_lesions` from `dicom_to_png.py`: normalize the raw pixel
array with `(raw - min) / np.ptp(raw) * 255` cast to `uint8` (lines
131-133; the border cropper is not invoked on this path), then crop one
lesion region per matching annotation record, padding each to the target
size.  The result is the list of lesion regions produced (each padded
crop is then written, which is out of scope here). -/
def extract_lesions (resample : List (List ℕ) → ℕ → ℕ → List (List ℕ))
    (raw : List (List ℤ)) (id : String) (tw th : ℕ)
    (records : List AnnotationRecord) : List (List (List ℕ)) :=
  extractGo resample (normalizeGrid raw) id tw th records

/-- Python `filename.split("_lesion_")[0]` on character lists: the
portion of the string before the first occurrence of the separator (the
whole string when the separator does not occur). -/
def splitFirst (sep : List Char) : List Char → List Char
  | [] => []
  | c :: cs => if sep.isPrefixOf (c :: cs) then [] else c :: splitFirst sep cs

/-- `image_id = filename.split("_lesion_")[0]` from `train_test_split.py`
line 24. -/
def imageIdOf (f : String) : String := ⟨splitFirst "_lesion_".data f.data⟩

/-- `split_dict = dict(zip(df["image_id"], df["split"]))` from
`train_test_split.py` line 19, as the lookup function it induces.
Python dict construction inserts pairs left to right, a later pair
overwriting an earlier one with the same key. -/
def buildSplitDict (records : List (String × String)) : String → Option String :=
  records.foldl (fun m p => fun id => if id = p.1 then some p.2 else m id)
    (fun _ => none)

/-- One iteration of the file loop of `train_test_split.py` (lines
22-40), acting on the accumulated outcome `r = (remaining top-level
names, files moved to training/, files moved to test/)`.  A name not
ending in `.png`, a name whose derived image id is not in the map, and a
split value other than `training`/`test` (reported and skipped in the
source) all leave the file in place; otherwise `shutil.move` sends it to
the matching partition directory. -/
def splitStep (d : String → Option String) (f : String)
    (r : List String × List String × List String) :
    List String × List String × List String :=
  if f.endsWith ".png" then
    match d (imageIdOf f) with
    | some s =>
      if s = "training" then (r.1, f :: r.2.1, r.2.2)
      else if s = "test" then (r.1, r.2.1, f :: r.2.2)
      else (f :: r.1, r.2.1, r.2.2)
    | none => (f :: r.1, r.2.1, r.2.2)
  else (f :: r.1, r.2.1, r.2.2)

/-- The whole file loop of `train_test_split.py` over one directory
listing: the remaining top-level names and the two lists of moved
files. -/
def assign_splits (d : String → Option String) :
    List String → List String × List String × List String
  | [] => ([], [], [])
  | f :: fs => splitStep d f (assign_splits d fs)

/-- A directory entry the splitter leaves in place: not a `.png` name, or
an image id absent from the split map, or a split value that is neither
`training` nor `test`. -/
def staysPut (d : String → Option String) (f : String) : Bool :=
  if f.endsWith ".png" then
    match d (imageIdOf f) with
    | some s => if s = "training" then false else if s = "test" then false else true
    | none => true
  else true

/-! Helper lemmas about the embedding. -/

theorem getD_map_range {α} (f : ℕ → α) {n i : ℕ} (h : i < n) (d : α) :
    ((List.range n).map f).getD i d = f i := by
  simp [List.getD_eq_getElem?_getD, List.getElem?_map, List.getElem?_range h]

theorem foldl_min_le_init [LinearOrder α] (as : List α) (a : α) :
    as.foldl min a ≤ a := by
  induction as generalizing a with
  | nil => exact le_refl a
  | cons b bs ih => exact le_trans (ih (min a b)) (min_le_left a b)

theorem foldl_min_le_mem [LinearOrder α] {as : List α} {x : α} (a : α)
    (hx : x ∈ as) : as.foldl min a ≤ x := by
  induction as generalizing a with
  | nil => cases hx
  | cons b bs ih =>
    rcases List.mem_cons.mp hx with rfl | hx'
    · exact le_trans (foldl_min_le_init bs (min a x)) (min_le_right a x)
    · exact ih (min a b) hx'

theorem foldl_min_mem [LinearOrder α] (as : List α) (a : α) :
    as.foldl min a ∈ a :: as := by
  induction as generalizing a with
  | nil => exact List.mem_singleton.mpr rfl
  | cons b bs ih =>
    have h := ih (min a b)
    rcases List.mem_cons.mp h with h1 | h2
    · show List.foldl min (min a b) bs ∈ _
      rw [h1]
      rcases min_choice a b with h3 | h3 <;> rw [h3]
      · exact List.mem_cons_self _ _
      · exact List.mem_cons.mpr (Or.inr (List.mem_cons_self _ _))
    · exact List.mem_cons.mpr (Or.inr (List.mem_cons.mpr (Or.inr h2)))

theorem init_le_foldl_max [LinearOrder α] (as : List α) (a : α) :
    a ≤ as.foldl max a := by
  induction as generalizing a with
  | nil => exact le_refl a
  | cons b bs ih => exact le_trans (le_max_left a b) (ih (max a b))

theorem mem_le_foldl_max [LinearOrder α] {as : List α} {x : α} (a : α)
    (hx : x ∈ as) : x ≤ as.foldl max a := by
  induction as generalizing a with
  | nil => cases hx
  | cons b bs ih =>
    rcases List.mem_cons.mp hx with rfl | hx'
    · exact le_trans (le_max_right a x) (init_le_foldl_max bs (max a x))
    · exact ih (max a b) hx'

theorem foldl_max_mem [LinearOrder α] (as : List α) (a : α) :
    as.foldl max a ∈ a :: as := by
  induction as generalizing a with
  | nil => exact List.mem_singleton.mpr rfl
  | cons b bs ih =>
    have h := ih (max a b)
    rcases List.mem_cons.mp h with h1 | h2
    · show List.foldl max (max a b) bs ∈ _
      rw [h1]
      rcases max_choice a b with h3 | h3 <;> rw [h3]
      · exact List.mem_cons_self _ _
      · exact List.mem_cons.mpr (Or.inr (List.mem_cons_self _ _))
    · exact List.mem_cons.mpr (Or.inr (List.mem_cons.mpr (Or.inr h2)))

theorem minD_le [LinearOrder α] [Zero α] {l : List α} {x : α} (hx : x ∈ l) :
    minD l ≤ x := by
  match l with
  | a :: as =>
    rcases List.mem_cons.mp hx with rfl | hx'
    · exact foldl_min_le_init as x
    · exact foldl_min_le_mem a hx'

theorem le_maxD [LinearOrder α] [Zero α] {l : List α} {x : α} (hx : x ∈ l) :
    x ≤ maxD l := by
  match l with
  | a :: as =>
    rcases List.mem_cons.mp hx with rfl | hx'
    · exact init_le_foldl_max as x
    · exact mem_le_foldl_max a hx'

theorem minD_mem [LinearOrder α] [Zero α] {l : List α} (h : l ≠ []) :
    minD l ∈ l := by
  match l with
  | a :: as => exact foldl_min_mem as a

theorem maxD_mem [LinearOrder α] [Zero α] {l : List α} (h : l ≠ []) :
    maxD l ∈ l := by
  match l with
  | a :: as => exact foldl_max_mem as a

theorem pySliceNat_length {α} (l : List α) (a b : ℕ) :
    (pySliceNat l a b).length = min b l.length - a := by
  simp [pySliceNat]

theorem pySliceNat_getElem? {α} {l : List α} {a b i : ℕ} (h : a + i < b) :
    (pySliceNat l a b)[i]? = l[a + i]? := by
  simp only [pySliceNat, List.getElem?_drop, List.getElem?_take]
  rw [if_pos h]

theorem pySliceNat_getD {α} {l : List α} {a b j : ℕ} (h : a + j < b) (d : α) :
    (pySliceNat l a b).getD j d = l.getD (a + j) d := by
  simp only [List.getD_eq_getElem?_getD, pySliceNat_getElem? h]

theorem nRows_pySlice2 (g : List (List ℕ)) (r0 r1 c0 c1 : ℕ) :
    nRows (pySlice2 g r0 r1 c0 c1) = min r1 (nRows g) - r0 := by
  simp [pySlice2, nRows, pySliceNat]

theorem px_pySlice2 {g : List (List ℕ)} {r0 r1 c0 c1 i j : ℕ}
    (hr : r0 + i < r1) (hc : c0 + j < c1) :
    px (pySlice2 g r0 r1 c0 c1) i j = px g (r0 + i) (c0 + j) := by
  simp only [px, pySlice2, List.getD_eq_getElem?_getD, List.getElem?_map,
    pySliceNat_getElem? hr]
  cases hrow : g[r0 + i]? with
  | none => simp
  | some row =>
    simp only [Option.map_some', Option.getD_some]
    simp only [List.getD_eq_getElem?_getD, pySliceNat_getElem? hc]

theorem nRows_remInfo (g : List (List ℕ)) : nRows (remInfo g) = nRows g := by
  simp [remInfo, nRows]

theorem px_remInfo {g : List (List ℕ)} {i j : ℕ} (hi : i < nRows g)
    (hj : j < nCols g) : px (remInfo g) i j = remPix g i j := by
  unfold px remInfo
  rw [getD_map_range _ hi, getD_map_range _ hj]

theorem maskAny_iff {g : List (List ℕ)} {t : ℕ} :
    maskAny g t = true ↔
      ∃ i, i < nRows g ∧ ∃ j, j < nCols g ∧ t < remPix g i j := by
  constructor
  · intro h
    simp only [maskAny, List.any_eq_true, remInfo, List.mem_map,
      List.mem_range, decide_eq_true_iff] at h
    obtain ⟨row, ⟨i, hi, hrow⟩, v, hv, htv⟩ := h
    subst hrow
    obtain ⟨j, hj, hvj⟩ := List.mem_map.mp hv
    have hjw := List.mem_range.mp hj
    subst hvj
    exact ⟨i, hi, j, hjw, htv⟩
  · rintro ⟨i, hi, j, hj, hlt⟩
    simp only [maskAny, List.any_eq_true, remInfo, List.mem_map,
      List.mem_range, decide_eq_true_iff]
    exact ⟨(List.range (nCols g)).map (remPix g i), ⟨i, hi, rfl⟩,
      remPix g i j, List.mem_map.mpr ⟨j, List.mem_range.mpr hj, rfl⟩, hlt⟩

theorem mem_maskRows {g : List (List ℕ)} {t i : ℕ} :
    i ∈ maskRows g t ↔
      i < nRows g ∧ ∃ j, j < nCols g ∧ t < remPix g i j := by
  constructor
  · intro h
    obtain ⟨hmem, hany⟩ := List.mem_filter.mp h
    have hi := List.mem_range.mp hmem
    obtain ⟨j, hj, hlt⟩ := List.any_eq_true.mp hany
    have hjw := List.mem_range.mp hj
    have hlt' := of_decide_eq_true hlt
    exact ⟨hi, j, hjw, px_remInfo hi hjw ▸ hlt'⟩
  · rintro ⟨hi, j, hjw, hlt⟩
    refine List.mem_filter.mpr ⟨List.mem_range.mpr hi, ?_⟩
    refine List.any_eq_true.mpr ⟨j, List.mem_range.mpr hjw, ?_⟩
    exact decide_eq_true ((px_remInfo hi hjw).symm ▸ hlt)

theorem mem_maskCols {g : List (List ℕ)} {t j : ℕ} :
    j ∈ maskCols g t ↔
      j < nCols g ∧ ∃ i, i < nRows g ∧ t < remPix g i j := by
  constructor
  · intro h
    obtain ⟨hmem, hany⟩ := List.mem_filter.mp h
    have hj := List.mem_range.mp hmem
    obtain ⟨i, hi, hlt⟩ := List.any_eq_true.mp hany
    have hih := List.mem_range.mp hi
    have hlt' := of_decide_eq_true hlt
    exact ⟨hj, i, hih, px_remInfo hih hj ▸ hlt'⟩
  · rintro ⟨hj, i, hih, hlt⟩
    refine List.mem_filter.mpr ⟨List.mem_range.mpr hj, ?_⟩
    refine List.any_eq_true.mpr ⟨i, List.mem_range.mpr hih, ?_⟩
    exact decide_eq_true ((px_remInfo hih hj).symm ▸ hlt)

theorem maskRows_ne_nil {g : List (List ℕ)} {t : ℕ} (hA : maskAny g t = true) :
    maskRows g t ≠ [] := by
  obtain ⟨i, hi, j, hj, hlt⟩ := maskAny_iff.mp hA
  exact List.ne_nil_of_mem (mem_maskRows.mpr ⟨hi, j, hj, hlt⟩)

theorem maskCols_ne_nil {g : List (List ℕ)} {t : ℕ} (hA : maskAny g t = true) :
    maskCols g t ≠ [] := by
  obtain ⟨i, hi, j, hj, hlt⟩ := maskAny_iff.mp hA
  exact List.ne_nil_of_mem (mem_maskCols.mpr ⟨hj, i, hi, hlt⟩)

theorem maskY0_mem {g : List (List ℕ)} {t : ℕ} (hA : maskAny g t = true) :
    maskY0 g t ∈ maskRows g t := minD_mem (maskRows_ne_nil hA)

theorem maskY1_mem {g : List (List ℕ)} {t : ℕ} (hA : maskAny g t = true) :
    maskY1 g t ∈ maskRows g t := maxD_mem (maskRows_ne_nil hA)

theorem maskX0_mem {g : List (List ℕ)} {t : ℕ} (hA : maskAny g t = true) :
    maskX0 g t ∈ maskCols g t := minD_mem (maskCols_ne_nil hA)

theorem maskX1_mem {g : List (List ℕ)} {t : ℕ} (hA : maskAny g t = true) :
    maskX1 g t ∈ maskCols g t := maxD_mem (maskCols_ne_nil hA)

theorem maskY0_le_maskY1 {g : List (List ℕ)} {t : ℕ}
    (hA : maskAny g t = true) : maskY0 g t ≤ maskY1 g t :=
  minD_le (maskY1_mem hA)

theorem maskX0_le_maskX1 {g : List (List ℕ)} {t : ℕ}
    (hA : maskAny g t = true) : maskX0 g t ≤ maskX1 g t :=
  minD_le (maskX1_mem hA)

theorem maskY1_lt {g : List (List ℕ)} {t : ℕ} (hA : maskAny g t = true) :
    maskY1 g t < nRows g := (mem_maskRows.mp (maskY1_mem hA)).1

theorem maskX1_lt {g : List (List ℕ)} {t : ℕ} (hA : maskAny g t = true) :
    maskX1 g t < nCols g := (mem_maskCols.mp (maskX1_mem hA)).1

theorem nRows_crop {g : List (List ℕ)} {t : ℕ} (hA : maskAny g t = true) :
    nRows (crop_borders g t) = maskY1 g t + 1 - maskY0 g t := by
  rw [crop_borders, if_pos hA, nRows_pySlice2]
  have h1 := maskY1_lt hA
  omega

theorem length_row_crop {g : List (List ℕ)} {t : ℕ} (hrect : isRect g)
    (hA : maskAny g t = true) :
    ∀ row ∈ crop_borders g t, row.length = maskX1 g t + 1 - maskX0 g t := by
  intro row hrow
  rw [crop_borders, if_pos hA, pySlice2] at hrow
  obtain ⟨r, hr, rfl⟩ := List.mem_map.mp hrow
  have hrg : r ∈ g :=
    List.mem_of_mem_take (List.mem_of_mem_drop hr)
  have hrl : r.length = nCols g := hrect r hrg
  rw [pySliceNat_length, hrl]
  have h1 := maskX1_lt hA
  omega

theorem nCols_crop {g : List (List ℕ)} {t : ℕ} (hrect : isRect g)
    (hA : maskAny g t = true) :
    nCols (crop_borders g t) = maskX1 g t + 1 - maskX0 g t := by
  have hlen : nRows (crop_borders g t) = maskY1 g t + 1 - maskY0 g t :=
    nRows_crop hA
  have hpos : 0 < nRows (crop_borders g t) := by
    rw [hlen]
    have := maskY0_le_maskY1 hA
    omega
  cases hc : crop_borders g t with
  | nil => rw [hc] at hpos; cases hpos
  | cons a as =>
    have ha : a ∈ crop_borders g t := by rw [hc]; exact List.mem_cons_self _ _
    have := length_row_crop hrect hA a ha
    simp only [nCols, hc, List.headD_cons]
    exact this

theorem isRect_crop {g : List (List ℕ)} {t : ℕ} (hrect : isRect g)
    (hA : maskAny g t = true) : isRect (crop_borders g t) := by
  intro row hrow
  rw [length_row_crop hrect hA row hrow, nCols_crop hrect hA]

theorem px_crop {g : List (List ℕ)} {t i j : ℕ}
    (hA : maskAny g t = true) (hi : maskY0 g t + i < maskY1 g t + 1)
    (hj : maskX0 g t + j < maskX1 g t + 1) :
    px (crop_borders g t) i j = px g (maskY0 g t + i) (maskX0 g t + j) := by
  rw [crop_borders, if_pos hA]
  exact px_pySlice2 hi hj

theorem inCorner_of_small {h w i j : ℕ} (hh : h ≤ 90) (hw : w ≤ 160)
    (hi : i < h) (hj : j < w) : inCorner h w i j = true := by
  rw [inCorner, Bool.and_eq_true, Bool.or_eq_true, Bool.or_eq_true]
  constructor
  · rcases Nat.lt_or_ge i 45 with h1 | h1
    · exact Or.inl (decide_eq_true (by omega))
    · refine Or.inr (decide_eq_true ?_)
      rw [pyIdx, if_neg (by omega)]
      omega
  · rcases Nat.lt_or_ge j 80 with h1 | h1
    · exact Or.inl (decide_eq_true (by omega))
    · refine Or.inr (decide_eq_true ?_)
      rw [pyIdx, if_neg (by omega)]
      omega

/-- Claim C10: on any input image of height at most 90 and width at most
160, the four fixed 45 × 80 corner rectangles jointly cover the image, so
corner masking zeroes every pixel of `rem_info`, the binary mask is
empty, and `crop_borders` returns its input unchanged. -/
theorem crop_borders_small_input_id (g : List (List ℕ)) (t : ℕ)
    (hh : nRows g ≤ 90) (hw : nCols g ≤ 160) : crop_borders g t = g := by
  have hA : ¬ maskAny g t = true := by
    intro h
    obtain ⟨i, hi, j, hj, hlt⟩ := maskAny_iff.mp h
    rw [remPix, if_pos (inCorner_of_small hh hw hi hj)] at hlt
    omega
  rw [crop_borders, if_neg hA]

/-- Witness for C10 at a concrete 2 × 2 image. -/
theorem crop_borders_small_input_id_witness :
    nRows [[200, 3], [7, 99]] ≤ 90 ∧ nCols [[200, 3], [7, 99]] ≤ 160 ∧
      crop_borders [[200, 3], [7, 99]] 10 = [[200, 3], [7, 99]] :=
  ⟨by decide, by decide,
    crop_borders_small_input_id [[200, 3], [7, 99]] 10 (by decide) (by decide)⟩

/-- Claim C7: for every rectangular image with positive dimensions,
`crop_borders` returns an image whose height and width are at least 1 and
at most the input's, and when the binary mask built from `rem_info` has
no true pixel it returns the input unchanged. -/
theorem crop_borders_never_empty (g : List (List ℕ)) (t : ℕ)
    (hrect : isRect g) (hh : 1 ≤ nRows g) (hw : 1 ≤ nCols g) :
    (1 ≤ nRows (crop_borders g t) ∧ nRows (crop_borders g t) ≤ nRows g ∧
     1 ≤ nCols (crop_borders g t) ∧ nCols (crop_borders g t) ≤ nCols g ∧
     isRect (crop_borders g t)) ∧
    (maskAny g t = false → crop_borders g t = g) := by
  constructor
  · by_cases hA : maskAny g t = true
    · have h1 := maskY0_le_maskY1 hA
      have h2 := maskY1_lt hA
      have h3 := maskX0_le_maskX1 hA
      have h4 := maskX1_lt hA
      refine ⟨?_, ?_, ?_, ?_, isRect_crop hrect hA⟩
      · rw [nRows_crop hA]; omega
      · rw [nRows_crop hA]; omega
      · rw [nCols_crop hrect hA]; omega
      · rw [nCols_crop hrect hA]; omega
    · rw [crop_borders, if_neg hA]
      exact ⟨hh, le_refl _, hw, le_refl _, hrect⟩
  · intro hF
    rw [crop_borders, if_neg (by simp [hF])]

/-- Witness for C7 at a concrete 2 × 2 image. -/
theorem crop_borders_never_empty_witness :
    (isRect [[20, 5], [6, 7]] ∧ 1 ≤ nRows [[20, 5], [6, 7]] ∧
      1 ≤ nCols [[20, 5], [6, 7]]) ∧
    ((1 ≤ nRows (crop_borders [[20, 5], [6, 7]] 10) ∧
      nRows (crop_borders [[20, 5], [6, 7]] 10) ≤ nRows [[20, 5], [6, 7]] ∧
      1 ≤ nCols (crop_borders [[20, 5], [6, 7]] 10) ∧
      nCols (crop_borders [[20, 5], [6, 7]] 10) ≤ nCols [[20, 5], [6, 7]] ∧
      isRect (crop_borders [[20, 5], [6, 7]] 10)) ∧
     (maskAny [[20, 5], [6, 7]] 10 = false →
       crop_borders [[20, 5], [6, 7]] 10 = [[20, 5], [6, 7]])) :=
  ⟨⟨by decide, by decide, by decide⟩,
    crop_borders_never_empty [[20, 5], [6, 7]] 10 (by decide) (by decide)
      (by decide)⟩

theorem mem_entriesOf {g : List (List ℤ)} {row : List ℤ} {x : ℤ}
    (hrow : row ∈ g) (hx : x ∈ row) : x ∈ entriesOf g := by
  induction g with
  | nil => cases hrow
  | cons r rs ih =>
    have hstep : entriesOf (r :: rs) = r ++ entriesOf rs := rfl
    rw [hstep]
    rcases List.mem_cons.mp hrow with rfl | hrow'
    · exact List.mem_append.mpr (Or.inl hx)
    · exact List.mem_append.mpr (Or.inr (ih hrow'))

theorem minG_le {g : List (List ℤ)} {row : List ℤ} {x : ℤ}
    (hrow : row ∈ g) (hx : x ∈ row) : minG g ≤ x :=
  minD_le (mem_entriesOf hrow hx)

theorem le_maxG {g : List (List ℤ)} {row : List ℤ} {x : ℤ}
    (hrow : row ∈ g) (hx : x ∈ row) : x ≤ maxG g :=
  le_maxD (mem_entriesOf hrow hx)

theorem normPix_le_255 {mn mx x : ℤ} (h2 : x ≤ mx)
    (h3 : mn < mx) : normPix mn mx x ≤ 255 := by
  rw [normPix]
  have hden : (0 : ℚ) < ((mx - mn : ℤ) : ℚ) := by
    exact_mod_cast (by omega : (0 : ℤ) < mx - mn)
  have hq1 : (((x - mn : ℤ) : ℚ) / ((mx - mn : ℤ) : ℚ)) ≤ 1 := by
    rw [div_le_one hden]
    exact_mod_cast (by omega : (x - mn : ℤ) ≤ mx - mn)
  have hmul : (((x - mn : ℤ) : ℚ) / ((mx - mn : ℤ) : ℚ)) * 255 ≤ 255 := by
    calc (((x - mn : ℤ) : ℚ) / ((mx - mn : ℤ) : ℚ)) * 255
        ≤ 1 * 255 := by
          exact mul_le_mul_of_nonneg_right hq1 (by norm_num)
      _ = 255 := one_mul 255
  have hfloor := Int.floor_le_floor hmul
  rw [show ((255 : ℚ)) = ((255 : ℤ) : ℚ) by norm_num, Int.floor_intCast] at hfloor
  exact Int.toNat_le.mpr hfloor

theorem normPix_at_max {mn mx : ℤ} (h3 : mn < mx) : normPix mn mx mx = 255 := by
  rw [normPix]
  have hne : ((mx - mn : ℤ) : ℚ) ≠ 0 := by
    exact_mod_cast (by omega : (mx - mn : ℤ) ≠ 0)
  rw [div_self hne, one_mul]
  decide

theorem normPix_at_min (mn mx : ℤ) : normPix mn mx mn = 0 := by
  simp only [normPix, sub_self, Int.cast_zero, zero_div, zero_mul]
  decide

/-- Claim C9: for a raw sample with strictly larger maximum than minimum,
every normalized pixel lies in [0, 255] (the values are naturals, so
0 is a lower bound by type), a pixel holding the original maximum maps to
255 and a pixel holding the original minimum maps to 0, under
`(raw - min) / (max - min) * 255` truncated to unsigned 8-bit. -/
theorem normalize_range (g : List (List ℤ)) (hlt : minG g < maxG g) :
    (∀ row ∈ normalizeGrid g, ∀ v ∈ row, v ≤ 255) ∧
    (∀ row ∈ g, ∀ x ∈ row,
      (x = maxG g → normPix (minG g) (maxG g) x = 255) ∧
      (x = minG g → normPix (minG g) (maxG g) x = 0)) := by
  constructor
  · intro row' hrow' v hv
    obtain ⟨row, hrow, rfl⟩ := List.mem_map.mp hrow'
    obtain ⟨x, hx, rfl⟩ := List.mem_map.mp hv
    exact normPix_le_255 (le_maxG hrow hx) hlt
  · intro row hrow x hx
    constructor
    · intro hmax
      rw [hmax]
      exact normPix_at_max hlt
    · intro hmin
      rw [hmin]
      exact normPix_at_min _ _

/-- Witness for C9 at a concrete 2 × 2 raw sample with range [0, 3]. -/
theorem normalize_range_witness :
    minG [[(0 : ℤ), 3], [1, 2]] < maxG [[(0 : ℤ), 3], [1, 2]] ∧
    ((∀ row ∈ normalizeGrid [[(0 : ℤ), 3], [1, 2]], ∀ v ∈ row, v ≤ 255) ∧
     (∀ row ∈ [[(0 : ℤ), 3], [1, 2]], ∀ x ∈ row,
       (x = maxG [[(0 : ℤ), 3], [1, 2]] →
         normPix (minG [[(0 : ℤ), 3], [1, 2]]) (maxG [[(0 : ℤ), 3], [1, 2]]) x = 255) ∧
       (x = minG [[(0 : ℤ), 3], [1, 2]] →
         normPix (minG [[(0 : ℤ), 3], [1, 2]]) (maxG [[(0 : ℤ), 3], [1, 2]]) x = 0))) :=
  ⟨by decide, normalize_range [[(0 : ℤ), 3], [1, 2]] (by decide)⟩

/-- Claim C2 concerns a code bug: on a flat raw sample
(`max == min`) the code performs the division `0 / 0` unguarded (numpy
emits NaN without raising) and still produces an image of the input's
shape; no `DegenerateImage` condition exists anywhere in the source.
This theorem evaluates the embedded normalization at a flat 2 × 2 input
and shows it returns a full-shape raster rather than failing. -/
theorem normalize_flat_returns_image :
    nRows (normalizeGrid [[(7 : ℤ), 7], [7, 7]]) = 2 ∧
    nCols (normalizeGrid [[(7 : ℤ), 7], [7, 7]]) = 2 := by
  constructor <;> rfl

theorem nRows_pasteCanvas (resized : List (List ℕ)) (tw th a b : ℕ) :
    nRows (pasteCanvas resized tw th a b) = th := by
  simp [pasteCanvas, nRows]

theorem nCols_pasteCanvas (resized : List (List ℕ)) (tw th a b : ℕ)
    (hth : 1 ≤ th) : nCols (pasteCanvas resized tw th a b) = tw := by
  obtain ⟨k, rfl⟩ : ∃ k, th = k + 1 := ⟨th - 1, by omega⟩
  simp [pasteCanvas, nCols, List.range_succ_eq_map]

theorem length_row_pasteCanvas (resized : List (List ℕ)) (tw th a b : ℕ) :
    ∀ row ∈ pasteCanvas resized tw th a b, row.length = tw := by
  intro row hrow
  simp only [pasteCanvas, List.mem_map] at hrow
  obtain ⟨i, _, rfl⟩ := hrow
  simp

section
set_option maxRecDepth 8000
attribute [local semireducible] Rat.mul Rat.inv Rat.add

/-- Counterexample to claim C4 as stated: a 1 × 513 input has positive
width and height, yet at the default 512 × 512 target the truncated new
height is `int(1 * 512/513) = 0`, so PIL's `resize` raises `ValueError`
and `resize_with_padding` returns no image at all, let alone one of the
target dimensions. -/
theorem resize_with_padding_thin_counterexample :
    nRows [List.replicate 513 (0 : ℕ)] = 1 ∧
    nCols [List.replicate 513 (0 : ℕ)] = 513 ∧
    newH [List.replicate 513 (0 : ℕ)] 512 512 = 0 ∧
    resize_with_padding (fun _ _ _ => [[0]])
      [List.replicate 513 (0 : ℕ)] 512 512 = none := by
  refine ⟨rfl, rfl, ?_, ?_⟩
  · rfl
  · rfl

end

/-- Claim C4 as amended: for every input image with positive width and
height (including 1 × 1 and square images) whose TRUNCATED scaled
dimensions `int(w*scale)` and `int(h*scale)` are both at least 1 — the
case where one truncates to 0 makes PIL's `resize` raise instead of
returning — `resize_with_padding` returns an image, and that image has
exactly the requested target dimensions, for any resampler: the output
is the black target-size canvas with the resampled content pasted into
it, and pasting never changes the canvas size. -/
theorem resize_with_padding_target_dims
    (resample : List (List ℕ) → ℕ → ℕ → List (List ℕ))
    (g : List (List ℕ)) (tw th : ℕ) (hh : 1 ≤ nRows g) (hw : 1 ≤ nCols g)
    (htw : 1 ≤ tw) (hth : 1 ≤ th)
    (hnw : 1 ≤ newW g tw th) (hnh : 1 ≤ newH g tw th) :
    (resize_with_padding resample g tw th).isSome = true ∧
    nRows ((resize_with_padding resample g tw th).getD []) = th ∧
    nCols ((resize_with_padding resample g tw th).getD []) = tw ∧
    ∀ row ∈ (resize_with_padding resample g tw th).getD [],
      row.length = tw := by
  have heq : resize_with_padding resample g tw th =
      some (pasteCanvas (resample g (newW g tw th) (newH g tw th)) tw th
        ((tw - newW g tw th) / 2) ((th - newH g tw th) / 2)) := by
    rw [resize_with_padding, if_neg (by omega), if_neg (by omega)]
  rw [heq]
  exact ⟨rfl, nRows_pasteCanvas _ _ _ _ _, nCols_pasteCanvas _ _ _ _ _ hth,
    length_row_pasteCanvas _ _ _ _ _⟩

section
attribute [local semireducible] Rat.mul Rat.inv Rat.add

/-- Witness for the amended C4: a 1 × 1 input, target 3 × 2, and a
trivial resampler; both truncated scaled dimensions are 2. -/
theorem resize_with_padding_target_dims_witness :
    (1 ≤ nRows [[9]] ∧ 1 ≤ nCols [[9]] ∧ 1 ≤ 3 ∧ 1 ≤ 2 ∧
     1 ≤ newW [[9]] 3 2 ∧ 1 ≤ newH [[9]] 3 2) ∧
    ((resize_with_padding (fun _ _ _ => [[5]]) [[9]] 3 2).isSome = true ∧
     nRows ((resize_with_padding (fun _ _ _ => [[5]]) [[9]] 3 2).getD []) = 2 ∧
     nCols ((resize_with_padding (fun _ _ _ => [[5]]) [[9]] 3 2).getD []) = 3 ∧
     ∀ row ∈ (resize_with_padding (fun _ _ _ => [[5]]) [[9]] 3 2).getD [],
       row.length = 3) :=
  ⟨⟨by decide, by decide, by decide, by decide, by decide, by decide⟩,
    resize_with_padding_target_dims (fun _ _ _ => [[5]]) [[9]] 3 2
      (by decide) (by decide) (by decide) (by decide) (by decide) (by decide)⟩

end

theorem foldl_dict_skip (m : String → Option String)
    (l : List (String × String)) (id : String) (h : ∀ p ∈ l, p.1 ≠ id) :
    (l.foldl (fun m p => fun i => if i = p.1 then some p.2 else m i) m) id
      = m id := by
  induction l generalizing m with
  | nil => rfl
  | cons p ps ih =>
    rw [List.foldl_cons, ih _ (fun q hq => h q (List.mem_cons.mpr (Or.inr hq)))]
    have hne := h p (List.mem_cons_self _ _)
    show (if id = p.1 then some p.2 else m id) = m id
    rw [if_neg (fun he => hne (Eq.symm he))]

/-- Counterexample to claim C1: building the split map from two records
that share `image_id` `"a"` but disagree on the split, the lookup
returns the LAST encountered mapping (`"test"`), not the first
(`"training"`): Python `dict(zip(...))` lets later pairs overwrite
earlier ones. -/
theorem buildSplitDict_first_wins_false :
    buildSplitDict [("a", "training"), ("a", "test")] "a" = some "test" ∧
    buildSplitDict [("a", "training"), ("a", "test")] "a" ≠ some "training" := by
  constructor
  · rfl
  · decide

/-- Claim C1 as amended: when several records share an `image_id`, the
mapping used for lookup is the LAST encountered one in record order:
whenever the record list decomposes as `l₁ ++ (id, v) :: l₂` with no
record for `id` in the tail `l₂`, the lookup for `id` yields `v`. -/
theorem buildSplitDict_last_wins (l₁ l₂ : List (String × String))
    (id v : String) (h : ∀ p ∈ l₂, p.1 ≠ id) :
    buildSplitDict (l₁ ++ (id, v) :: l₂) id = some v := by
  rw [buildSplitDict, show l₁ ++ (id, v) :: l₂ = (l₁ ++ [(id, v)]) ++ l₂ by simp,
    List.foldl_append]
  rw [foldl_dict_skip _ _ _ h, List.foldl_append]
  simp

/-- Witness for the amended C1 at concrete records. -/
theorem buildSplitDict_last_wins_witness :
    (∀ p ∈ [("b", "x")], p.1 ≠ "a") ∧
    buildSplitDict ([("a", "training")] ++ ("a", "test") :: [("b", "x")]) "a"
      = some "test" :=
  ⟨by decide, buildSplitDict_last_wins [("a", "training")] [("b", "x")] "a"
    "test" (by decide)⟩

theorem splitStep_cases (d : String → Option String) (f : String)
    (r : List String × List String × List String) :
    (staysPut d f = true ∧ splitStep d f r = (f :: r.1, r.2.1, r.2.2)) ∨
    (staysPut d f = false ∧
      (splitStep d f r = (r.1, f :: r.2.1, r.2.2) ∨
       splitStep d f r = (r.1, r.2.1, f :: r.2.2))) := by
  by_cases hpng : f.endsWith ".png"
  · cases hd : d (imageIdOf f) with
    | none =>
      exact Or.inl ⟨by simp [staysPut, hpng, hd], by simp [splitStep, hpng, hd]⟩
    | some s =>
      by_cases h1 : s = "training"
      · exact Or.inr ⟨by simp [staysPut, hpng, hd, h1],
          Or.inl (by simp [splitStep, hpng, hd, h1])⟩
      · by_cases h2 : s = "test"
        · exact Or.inr ⟨by simp [staysPut, hpng, hd, h1, h2],
            Or.inr (by simp [splitStep, hpng, hd, h1, h2])⟩
        · exact Or.inl ⟨by simp [staysPut, hpng, hd, h1, h2],
            by simp [splitStep, hpng, hd, h1, h2]⟩
  · exact Or.inl ⟨by simp [staysPut, hpng], by simp [splitStep, hpng]⟩

theorem assign_splits_rem_staysPut (d : String → Option String)
    (files : List String) :
    ∀ f ∈ (assign_splits d files).1, staysPut d f = true := by
  induction files with
  | nil => intro f hf; cases hf
  | cons x xs ih =>
    intro f hf
    have hstep : assign_splits d (x :: xs) = splitStep d x (assign_splits d xs) :=
      rfl
    rcases splitStep_cases d x (assign_splits d xs) with ⟨hs, heq⟩ | ⟨hs, heq | heq⟩
    · rw [hstep, heq] at hf
      rcases List.mem_cons.mp hf with rfl | hf'
      · exact hs
      · exact ih f hf'
    · rw [hstep, heq] at hf
      exact ih f hf
    · rw [hstep, heq] at hf
      exact ih f hf

theorem assign_splits_of_staysPut (d : String → Option String)
    (files : List String) (h : ∀ f ∈ files, staysPut d f = true) :
    assign_splits d files = (files, [], []) := by
  induction files with
  | nil => rfl
  | cons x xs ih =>
    have hx := h x (List.mem_cons_self _ _)
    have hxs := ih (fun f hf => h f (List.mem_cons.mpr (Or.inr hf)))
    have hstep : assign_splits d (x :: xs) = splitStep d x (assign_splits d xs) :=
      rfl
    rcases splitStep_cases d x (assign_splits d xs) with ⟨_, heq⟩ | ⟨hs, _⟩
    · rw [hstep, heq, hxs]
    · rw [hx] at hs; cases hs

theorem assign_splits_count (d : String → Option String) (files : List String)
    (f : String) :
    (assign_splits d files).1.count f + (assign_splits d files).2.1.count f
      + (assign_splits d files).2.2.count f = files.count f := by
  induction files with
  | nil => rfl
  | cons x xs ih =>
    have hstep : assign_splits d (x :: xs) = splitStep d x (assign_splits d xs) :=
      rfl
    rcases splitStep_cases d x (assign_splits d xs) with ⟨_, heq⟩ | ⟨_, heq | heq⟩ <;>
      rw [hstep, heq] <;>
      simp only [List.count_cons] <;>
      omega

/-- Claim C6: the Dataset Splitter pass is idempotent.  Running
`assign_splits` on the top-level listing that remains after a previous
run performs no further moves and leaves the listing unchanged (already
moved files are no longer listed, so they are neither touched nor a
source of errors), and across one run every directory entry ends up in
exactly one of remaining/training/test, so no file is ever moved
twice. -/
theorem assign_splits_idem (d : String → Option String) (files : List String) :
    assign_splits d (assign_splits d files).1
      = ((assign_splits d files).1, [], []) ∧
    ∀ f, (assign_splits d files).1.count f
        + (assign_splits d files).2.1.count f
        + (assign_splits d files).2.2.count f = files.count f :=
  ⟨assign_splits_of_staysPut d _ (assign_splits_rem_staysPut d files),
    assign_splits_count d files⟩

theorem pyIdx_le (i : ℤ) (n : ℕ) : pyIdx i n ≤ n := by
  rw [pyIdx]; split <;> omega

theorem pyIdx_of_nonneg_le {i : ℤ} {n : ℕ} (h0 : 0 ≤ i) (hn : i ≤ (n : ℤ)) :
    pyIdx i n = i.toNat := by
  rw [pyIdx]; split <;> omega

theorem pySliceZ_length {α} (l : List α) (a b : ℤ) :
    (pySliceZ l a b).length = pyIdx b l.length - pyIdx a l.length := by
  rw [pySliceZ, pySliceNat_length]
  have := pyIdx_le b l.length
  omega

theorem nRows_normalizeGrid (g : List (List ℤ)) :
    nRows (normalizeGrid g) = nRows g := by
  simp [normalizeGrid, nRows]

theorem nCols_normalizeGrid (g : List (List ℤ)) :
    nCols (normalizeGrid g) = nCols g := by
  cases g with
  | nil => rfl
  | cons r rs => simp [normalizeGrid, nCols]

theorem isRect_normalizeGrid {g : List (List ℤ)} (h : isRect g) :
    isRect (normalizeGrid g) := by
  intro row hrow
  obtain ⟨r, hr, rfl⟩ := List.mem_map.mp hrow
  rw [List.length_map, nCols_normalizeGrid]
  exact h r hr

theorem validBox_unfold {h w : ℕ} {xmin ymin xmax ymax : ℤ}
    (hv : validBox h w (xmin, ymin, xmax, ymax) = true) :
    0 ≤ xmin ∧ xmin < xmax ∧ xmax ≤ (w : ℤ) ∧
    0 ≤ ymin ∧ ymin < ymax ∧ ymax ≤ (h : ℤ) := by
  simp only [validBox, Bool.and_eq_true, decide_eq_true_iff] at hv
  tauto

theorem lesionCrop_nonempty {img : List (List ℕ)} {xmin ymin xmax ymax : ℤ}
    (hrect : isRect img)
    (hv : validBox (nRows img) (nCols img) (xmin, ymin, xmax, ymax) = true) :
    ¬(nRows (lesionCrop img xmin ymin xmax ymax) = 0 ∨
      nCols (lesionCrop img xmin ymin xmax ymax) = 0) := by
  obtain ⟨hx0, hxlt, hxw, hy0, hylt, hyh⟩ := validBox_unfold hv
  have hrows : (pySliceZ img ymin ymax).length = ymax.toNat - ymin.toNat := by
    rw [pySliceZ_length, show img.length = nRows img from rfl,
      pyIdx_of_nonneg_le (by omega) hyh, pyIdx_of_nonneg_le hy0 (by omega)]
  have hrpos : 0 < (pySliceZ img ymin ymax).length := by omega
  have hR : nRows (lesionCrop img xmin ymin xmax ymax)
      = ymax.toNat - ymin.toNat := by
    rw [lesionCrop, nRows, List.length_map, hrows]
  cases hc : pySliceZ img ymin ymax with
  | nil => rw [hc] at hrpos; cases hrpos
  | cons r rs =>
    have hrmem : r ∈ img := by
      have : r ∈ pySliceZ img ymin ymax := by
        rw [hc]; exact List.mem_cons_self _ _
      rw [pySliceZ, pySliceNat] at this
      exact List.mem_of_mem_take (List.mem_of_mem_drop this)
    have hrlen : r.length = nCols img := hrect r hrmem
    have hC : nCols (lesionCrop img xmin ymin xmax ymax)
        = xmax.toNat - xmin.toNat := by
      rw [lesionCrop, hc]
      show (pySliceZ r xmin xmax).length = xmax.toNat - xmin.toNat
      rw [pySliceZ_length, hrlen, pyIdx_of_nonneg_le (by omega) hxw,
        pyIdx_of_nonneg_le hx0 (by omega)]
    rw [hR, hC]
    omega

theorem extractGo_all_valid {img : List (List ℕ)} {id : String}
    (resample : List (List ℕ) → ℕ → ℕ → List (List ℕ)) (tw th : ℕ)
    (records : List AnnotationRecord)
    (hv : ∀ r ∈ records, r.image_id = id → ∀ b, r.bbox = some b →
      (resize_with_padding resample
        (lesionCrop img b.1 b.2.1 b.2.2.1 b.2.2.2) tw th).isSome = true) :
    extractGo resample img id tw th records =
      (records.filter
        (fun r => decide (r.image_id = id) && r.bbox.isSome)).map
        (cropOfRecord img) := by
  induction records with
  | nil => rfl
  | cons r rs ih =>
    have hvr := fun q hq => hv q (List.mem_cons.mpr (Or.inr hq))
    by_cases hid : r.image_id = id
    · cases hb : r.bbox with
      | none =>
        simp only [extractGo, hid, if_pos, hb, List.filter_cons,
          decide_eq_true hid, Option.isSome_none, Bool.and_false]
        exact ih hvr
      | some b =>
        obtain ⟨x0, y0, x1, y1⟩ := b
        have hs : (resize_with_padding resample
            (lesionCrop img x0 y0 x1 y1) tw th).isSome = true :=
          hv r (List.mem_cons_self _ _) hid (x0, y0, x1, y1) hb
        obtain ⟨p, hp⟩ := Option.isSome_iff_exists.mp hs
        simp only [extractGo, hid, if_pos, hb, List.filter_cons,
          decide_eq_true hid, Option.isSome_some, Bool.and_true, if_true,
          List.map_cons, hp]
        refine congrArg₂ List.cons ?_ (ih hvr)
        rw [cropOfRecord, hb]
    · simp only [extractGo, hid, if_false, List.filter_cons,
        decide_eq_false hid, Bool.false_and]
      exact ih hvr

/-- Counterexample to claim C5 as stated: over a 2 × 2 image, a record
sequence whose FIRST record has a degenerate box (`ymax = ymin`, so not
valid) followed by a matching record with a perfectly valid box produces
ZERO lesion crops — the degenerate crop makes the code raise inside the
per-image `try`, aborting the loop — although exactly one record
matching `"imgA"` has a non-null valid bounding box, so the claim
demands exactly one crop. -/
theorem extract_lesions_miss_counterexample :
    extract_lesions (fun _ _ _ => [[0]]) [[(0 : ℤ), 1], [2, 3]] "imgA"
        512 512
        [⟨"imgA", some (0, 1, 2, 1)⟩, ⟨"imgA", some (0, 0, 1, 1)⟩] = [] ∧
    (List.filter
      (fun r => decide (r.image_id = "imgA") &&
        (match r.bbox with
          | some b => validBox 2 2 b
          | none => false))
      [(⟨"imgA", some (0, 1, 2, 1)⟩ : AnnotationRecord),
       ⟨"imgA", some (0, 0, 1, 1)⟩]).length = 1 := by
  constructor
  · rfl
  · rfl

/-- Claim C5 as amended: provided every matching record with a non-null
bounding box has a VALID box for the image's dimensions AND the in-loop
Padder call accepts its crop (the crop's truncated resize dimensions are
nonzero, so `resize_with_padding` returns instead of raising),
`extract_lesions` produces exactly one crop per matching non-null
record, in record order, each equal to the numpy slice
`image[ymin:ymax, xmin:xmax]` of the normalized, uncropped image
(`crop_borders` is never invoked on this path), and produces zero crops
when no record matches. -/
theorem extract_lesions_one_crop_per_record
    (resample : List (List ℕ) → ℕ → ℕ → List (List ℕ))
    (raw : List (List ℤ)) (id : String) (tw th : ℕ)
    (records : List AnnotationRecord)
    (hv : ∀ r ∈ records, r.image_id = id → ∀ b, r.bbox = some b →
      validBox (nRows (normalizeGrid raw)) (nCols (normalizeGrid raw)) b
          = true ∧
      (resize_with_padding resample
        (lesionCrop (normalizeGrid raw) b.1 b.2.1 b.2.2.1 b.2.2.2) tw
        th).isSome = true) :
    extract_lesions resample raw id tw th records =
      (records.filter
        (fun r => decide (r.image_id = id) && r.bbox.isSome)).map
        (cropOfRecord (normalizeGrid raw)) :=
  extractGo_all_valid resample tw th records
    (fun r hr hid b hb => (hv r hr hid b hb).2)

section
attribute [local semireducible] Rat.mul Rat.inv Rat.add

/-- Witness for the amended C5: one matching valid record whose crop the
Padder accepts, one non-matching record and one matching null-box record
yield exactly the one crop of the matching valid record. -/
theorem extract_lesions_one_crop_per_record_witness :
    (∀ r ∈ [(⟨"imgA", some (0, 0, 1, 2)⟩ : AnnotationRecord),
            ⟨"imgB", some (0, 0, 2, 2)⟩, ⟨"imgA", none⟩],
       r.image_id = "imgA" → ∀ b, r.bbox = some b →
         validBox (nRows (normalizeGrid [[(0 : ℤ), 1], [2, 3]]))
             (nCols (normalizeGrid [[(0 : ℤ), 1], [2, 3]])) b = true ∧
         (resize_with_padding (fun _ _ _ => [[0]])
           (lesionCrop (normalizeGrid [[(0 : ℤ), 1], [2, 3]]) b.1 b.2.1
             b.2.2.1 b.2.2.2) 512 512).isSome = true) ∧
    extract_lesions (fun _ _ _ => [[0]]) [[(0 : ℤ), 1], [2, 3]] "imgA"
        512 512
        [⟨"imgA", some (0, 0, 1, 2)⟩, ⟨"imgB", some (0, 0, 2, 2)⟩,
         ⟨"imgA", none⟩] =
      (List.filter
        (fun r => decide (r.image_id = "imgA") && r.bbox.isSome)
        [(⟨"imgA", some (0, 0, 1, 2)⟩ : AnnotationRecord),
         ⟨"imgB", some (0, 0, 2, 2)⟩, ⟨"imgA", none⟩]).map
        (cropOfRecord (normalizeGrid [[(0 : ℤ), 1], [2, 3]])) :=
  ⟨by decide,
    extract_lesions_one_crop_per_record (fun _ _ _ => [[0]])
      [[(0 : ℤ), 1], [2, 3]] "imgA" 512 512
      [⟨"imgA", some (0, 0, 1, 2)⟩, ⟨"imgB", some (0, 0, 2, 2)⟩,
       ⟨"imgA", none⟩] (by decide)⟩

end

/-- Claim C3 concerns a code bug.  `extract_lesions` performs no
bounding-box validation at all: at the specification's own example box
`(xmin 10, ymin 10, xmax 5, ymax 50)` the numpy slice is empty, the code
then raises inside the per-image `try`/`except` (division by the
zero-size crop's dimensions in `resize_with_padding`, line 62), and the
exception aborts the WHOLE record loop: the following perfectly valid
record for the same image is never processed, where the claim requires
it still to be.  This theorem evaluates the embedding at that input: two
matching records, the first invalid, the second valid, produce zero
crops instead of one. -/
theorem extract_lesions_invalid_box_aborts :
    extract_lesions (fun _ _ _ => [[0]])
        [[(0 : ℤ), 0, 0, 0], [0, 50, 100, 150], [0, 10, 20, 30],
         [5, 5, 5, 200]] "img1" 512 512
        [⟨"img1", some (10, 10, 5, 50)⟩, ⟨"img1", some (0, 0, 2, 2)⟩] = [] :=
  rfl

theorem pySlice2_full {g : List (List ℕ)} (hrect : isRect g) :
    pySlice2 g 0 (nRows g) 0 (nCols g) = g := by
  rw [pySlice2, pySliceNat, List.drop_zero, show nRows g = g.length from rfl,
    List.take_length]
  have hrows : ∀ row ∈ g, pySliceNat row 0 (nCols g) = id row := by
    intro row hrow
    rw [pySliceNat, List.drop_zero, id_eq]
    exact List.take_of_length_le (le_of_eq (hrect row hrow))
  rw [List.map_congr_left hrows, List.map_id]

theorem remPix_pos_fields {g : List (List ℕ)} {t i j : ℕ}
    (hm : t < remPix g i j) :
    inCorner (nRows g) (nCols g) i j = false ∧ px g i j ≤ 150 ∧
      t < px g i j := by
  rw [remPix] at hm
  by_cases h1 : inCorner (nRows g) (nCols g) i j
  · rw [if_pos h1] at hm; omega
  · rw [if_neg h1] at hm
    by_cases h2 : 150 < px g i j
    · rw [if_pos h2] at hm; omega
    · rw [if_neg h2] at hm
      exact ⟨Bool.not_eq_true _ ▸ eq_false_of_ne_true h1, by omega, hm⟩

theorem mask2_of_mask1 {g : List (List ℕ)} {t i j : ℕ} (hrect : isRect g)
    (hA : maskAny g t = true)
    (hc : ∀ i' ∈ List.range (nRows (crop_borders g t)),
      ∀ j' ∈ List.range (nCols (crop_borders g t)),
        inCorner (nRows (crop_borders g t)) (nCols (crop_borders g t)) i' j'
            = true →
          px (crop_borders g t) i' j' ≤ t)
    (hi : i < nRows g) (hj : j < nCols g) (hm : t < remPix g i j) :
    maskY0 g t ≤ i ∧ i ≤ maskY1 g t ∧ maskX0 g t ≤ j ∧ j ≤ maskX1 g t ∧
    t < remPix (crop_borders g t) (i - maskY0 g t) (j - maskX0 g t) := by
  have hiR : i ∈ maskRows g t := mem_maskRows.mpr ⟨hi, j, hj, hm⟩
  have hjC : j ∈ maskCols g t := mem_maskCols.mpr ⟨hj, i, hi, hm⟩
  have hy0i : maskY0 g t ≤ i := minD_le hiR
  have hiy1 : i ≤ maskY1 g t := le_maxD hiR
  have hx0j : maskX0 g t ≤ j := minD_le hjC
  have hjx1 : j ≤ maskX1 g t := le_maxD hjC
  obtain ⟨_, hble, hval⟩ := remPix_pos_fields hm
  have hpx : px (crop_borders g t) (i - maskY0 g t) (j - maskX0 g t)
      = px g i j := by
    have h := px_crop hA
      (i := i - maskY0 g t) (j := j - maskX0 g t)
      (by omega) (by omega)
    rw [h, show maskY0 g t + (i - maskY0 g t) = i by omega,
      show maskX0 g t + (j - maskX0 g t) = j by omega]
  have hibound : i - maskY0 g t < nRows (crop_borders g t) := by
    rw [nRows_crop hA]; omega
  have hjbound : j - maskX0 g t < nCols (crop_borders g t) := by
    rw [nCols_crop hrect hA]; omega
  refine ⟨hy0i, hiy1, hx0j, hjx1, ?_⟩
  rw [remPix]
  by_cases h1 : inCorner (nRows (crop_borders g t)) (nCols (crop_borders g t))
      (i - maskY0 g t) (j - maskX0 g t)
  · have := hc _ (List.mem_range.mpr hibound) _ (List.mem_range.mpr hjbound) h1
    rw [hpx] at this
    omega
  · rw [if_neg h1, hpx, if_neg (by omega)]
    exact hval

theorem crop_mask_extremes {g : List (List ℕ)} {t : ℕ} (hrect : isRect g)
    (hA : maskAny g t = true)
    (hc : ∀ i' ∈ List.range (nRows (crop_borders g t)),
      ∀ j' ∈ List.range (nCols (crop_borders g t)),
        inCorner (nRows (crop_borders g t)) (nCols (crop_borders g t)) i' j'
            = true →
          px (crop_borders g t) i' j' ≤ t) :
    maskAny (crop_borders g t) t = true ∧
    maskY0 (crop_borders g t) t = 0 ∧
    maskY1 (crop_borders g t) t = nRows (crop_borders g t) - 1 ∧
    maskX0 (crop_borders g t) t = 0 ∧
    maskX1 (crop_borders g t) t = nCols (crop_borders g t) - 1 := by
  have hd1 : nRows (crop_borders g t) = maskY1 g t + 1 - maskY0 g t :=
    nRows_crop hA
  have hd2 : nCols (crop_borders g t) = maskX1 g t + 1 - maskX0 g t :=
    nCols_crop hrect hA
  have hy01 := maskY0_le_maskY1 hA
  have hx01 := maskX0_le_maskX1 hA
  obtain ⟨hy0lt, jy, hjy, hmy0⟩ := mem_maskRows.mp (maskY0_mem hA)
  obtain ⟨hy1lt, jy1, hjy1, hmy1⟩ := mem_maskRows.mp (maskY1_mem hA)
  obtain ⟨hx0lt, iy0, hiy0, hmx0⟩ := mem_maskCols.mp (maskX0_mem hA)
  obtain ⟨hx1lt, iy1, hiy1, hmx1⟩ := mem_maskCols.mp (maskX1_mem hA)
  have A := mask2_of_mask1 hrect hA hc hy0lt hjy hmy0
  have B := mask2_of_mask1 hrect hA hc hy1lt hjy1 hmy1
  have C := mask2_of_mask1 hrect hA hc hiy0 hx0lt hmx0
  have D := mask2_of_mask1 hrect hA hc hiy1 hx1lt hmx1
  have hmemA : (0 : ℕ) ∈ maskRows (crop_borders g t) t := by
    refine mem_maskRows.mpr ⟨by omega, jy - maskX0 g t, by omega, ?_⟩
    have := A.2.2.2.2
    rw [show maskY0 g t - maskY0 g t = 0 from by omega] at this
    exact this
  have hmemB : nRows (crop_borders g t) - 1 ∈ maskRows (crop_borders g t) t := by
    refine mem_maskRows.mpr ⟨by omega, jy1 - maskX0 g t, by omega, ?_⟩
    have := B.2.2.2.2
    rw [show maskY1 g t - maskY0 g t = nRows (crop_borders g t) - 1 from by omega]
      at this
    exact this
  have hmemC : (0 : ℕ) ∈ maskCols (crop_borders g t) t := by
    refine mem_maskCols.mpr ⟨by omega, iy0 - maskY0 g t, by omega, ?_⟩
    have := C.2.2.2.2
    rw [show maskX0 g t - maskX0 g t = 0 from by omega] at this
    exact this
  have hmemD : nCols (crop_borders g t) - 1 ∈ maskCols (crop_borders g t) t := by
    refine mem_maskCols.mpr ⟨by omega, iy1 - maskY0 g t, by omega, ?_⟩
    have := D.2.2.2.2
    rw [show maskX1 g t - maskX0 g t = nCols (crop_borders g t) - 1 from by omega]
      at this
    exact this
  have hA2 : maskAny (crop_borders g t) t = true := by
    obtain ⟨_, jj, hjj, hmm⟩ := mem_maskRows.mp hmemA
    exact maskAny_iff.mpr ⟨0, by omega, jj, hjj, hmm⟩
  refine ⟨hA2, ?_, ?_, ?_, ?_⟩
  · have := minD_le hmemA
    show minD (maskRows (crop_borders g t) t) = 0
    omega
  · have hle := le_maxD hmemB
    have hmem := maxD_mem (List.ne_nil_of_mem hmemB)
    have := (mem_maskRows.mp hmem).1
    show maxD (maskRows (crop_borders g t) t) = nRows (crop_borders g t) - 1
    omega
  · have := minD_le hmemC
    show minD (maskCols (crop_borders g t) t) = 0
    omega
  · have hle := le_maxD hmemD
    have hmem := maxD_mem (List.ne_nil_of_mem hmemD)
    have := (mem_maskCols.mp hmem).1
    show maxD (maskCols (crop_borders g t) t) = nCols (crop_borders g t) - 1
    omega

/-- Claim C8: `crop_borders` is idempotent on its own output when rerun
with the same thresholds, under the claim's proviso that the corner
rectangles of the first output are already empty (every pixel of the
output lying in a corner rectangle is at or below the intensity
threshold; the source has no switch to disable corner masking, so this
is the operative side of the claim's disjunction).  The boundary rows
and columns of the first output each contain a mask pixel, which the
proviso keeps outside the second pass's corners, so the second bounding
rectangle is the whole image and the second crop is the identity; when
the first pass hit its empty-mask fallback the second pass repeats it
verbatim. -/
theorem crop_borders_idempotent (g : List (List ℕ)) (t : ℕ)
    (hrect : isRect g)
    (hc : ∀ i ∈ List.range (nRows (crop_borders g t)),
      ∀ j ∈ List.range (nCols (crop_borders g t)),
        inCorner (nRows (crop_borders g t)) (nCols (crop_borders g t)) i j
            = true →
          px (crop_borders g t) i j ≤ t) :
    crop_borders (crop_borders g t) t = crop_borders g t := by
  by_cases hA : maskAny g t = true
  · obtain ⟨hA2, hY0, hY1, hX0, hX1⟩ := crop_mask_extremes hrect hA hc
    have hpos : 1 ≤ nRows (crop_borders g t) := by
      rw [nRows_crop hA]
      have := maskY0_le_maskY1 hA
      omega
    have hposc : 1 ≤ nCols (crop_borders g t) := by
      rw [nCols_crop hrect hA]
      have := maskX0_le_maskX1 hA
      omega
    conv_lhs => rw [crop_borders]
    rw [if_pos hA2, hY0, hY1, hX0, hX1,
      show nRows (crop_borders g t) - 1 + 1 = nRows (crop_borders g t) from
        by omega,
      show nCols (crop_borders g t) - 1 + 1 = nCols (crop_borders g t) from
        by omega]
    exact pySlice2_full (isRect_crop hrect hA)
  · have e : crop_borders g t = g := by rw [crop_borders, if_neg hA]
    rw [e]
    exact e

/-- Witness for C8 at a concrete 2 × 2 image whose output corners are all
at or below the threshold. -/
theorem crop_borders_idempotent_witness :
    (isRect [[0, 5], [6, 7]] ∧
     (∀ i ∈ List.range (nRows (crop_borders [[0, 5], [6, 7]] 10)),
       ∀ j ∈ List.range (nCols (crop_borders [[0, 5], [6, 7]] 10)),
         inCorner (nRows (crop_borders [[0, 5], [6, 7]] 10))
             (nCols (crop_borders [[0, 5], [6, 7]] 10)) i j = true →
           px (crop_borders [[0, 5], [6, 7]] 10) i j ≤ 10)) ∧
    crop_borders (crop_borders [[0, 5], [6, 7]] 10) 10
      = crop_borders [[0, 5], [6, 7]] 10 :=
  ⟨⟨by decide, by decide⟩,
    crop_borders_idempotent [[0, 5], [6, 7]] 10 (by decide) (by decide)⟩

end GecaMammo
